import Mathlib

/-!
A shallow embedding of the Game of Life implementation in `gol.go`
(package `main`): the `Field` grid type with its `Set`, `Alive` and
`Next` methods, and the `Life` simulation type with `NewLife`, `Step`
and `String`.  Go slice indexing panics when an index is out of range;
fallible operations therefore return `Option`, with `none` standing
for a runtime panic.  Go's `%` on `int` is truncated remainder, which
is `Int.tmod`; Go's `/` on non-negative operands agrees with `Int.ediv`.
The process-wide `math/rand` source is modelled by an explicit stream
of draws.
-/

namespace GoL

/-- Go struct `Field`: a two-dimensional field of cells.  `s` is the
slice-of-slices `[][]bool` (a list of rows, indexed `s[y][x]`),
`width` and `h` the stored dimensions. -/
structure Field where
  s : List (List Bool)
  width : Int
  h : Int
  deriving DecidableEq, Repr

/-- Raw Go read `f.s[y][x]`: an out-of-range index (negative or too
large) is a runtime panic, modelled as `none`. -/
def Field.idx (f : Field) (x y : Int) : Option Bool :=
  if 0 ≤ y ∧ 0 ≤ x then
    (f.s[y.toNat]?).bind fun row => row[x.toNat]?
  else none

/-- Go `NewField(width, h)`: an empty field of the given size —
`h` rows of `width` cells, every cell `false`.  (Go's `make` panics on a
negative length; the claims only use positive dimensions, where
`Int.toNat` is faithful.) -/
def NewField (width h : Int) : Field :=
  { s := List.replicate h.toNat (List.replicate width.toNat false),
    width := width, h := h }

/-- Go `(*Field).Set(x, y, b)`: writes `f.s[y][x] = b`.  Out-of-range
coordinates panic (`none`); in range, row `y` is replaced by its update
at column `x`. -/
def Field.Set (f : Field) (x y : Int) (b : Bool) : Option Field :=
  if 0 ≤ y then
    match f.s[y.toNat]? with
    | none => none
    | some row =>
      if 0 ≤ x ∧ x.toNat < row.length then
        some { f with s := f.s.set y.toNat (row.set x.toNat b) }
      else none
  else none

/-- Go `(*Field).Alive(x, y)`: adds the dimension to each coordinate,
takes Go's `%` (truncated remainder, `Int.tmod`), then indexes.  The
single pre-addition wraps one torus width; further-out coordinates
leave the remainder negative and the indexing panics. -/
def Field.Alive (f : Field) (x y : Int) : Option Bool :=
  f.idx ((x + f.width).tmod f.width) ((y + f.h).tmod f.h)

/-- The neighbour offsets `(i, j)` visited by the double loop in
`(*Field).Next`, in source order (`i` outer from `-1` to `1`, `j`
inner, skipping `(0,0)`). -/
def neighborOffsets : List (Int × Int) :=
  [(-1, -1), (-1, 0), (-1, 1), (0, -1), (0, 1), (1, -1), (1, 0), (1, 1)]

/-- The `alive` counter computed by the loop in `(*Field).Next`: the
number of the 8 adjacent cells (toroidally wrapped by `Alive`) that are
alive.  A panic in any `Alive` call aborts the whole computation. -/
def Field.neighborCount (f : Field) (x y : Int) : Option Nat :=
  neighborOffsets.foldlM
    (fun n p => (f.Alive (x + p.1) (y + p.2)).map fun b => if b then n + 1 else n) 0

/-- Go `(*Field).Next(x, y)`: the state of the cell at the next time
step, `alive == 3 || alive == 2 && f.Alive(x, y)` with Go's
short-circuit evaluation (the final `Alive` is only consulted when the
count is exactly 2). -/
def Field.Next (f : Field) (x y : Int) : Option Bool :=
  (f.neighborCount x y).bind fun alive =>
    if alive = 3 then some true
    else if alive = 2 then f.Alive x y
    else some false

/-- Go struct `Life`: the state of a round — two fields `a` (current)
and `b` (scratch) plus the stored dimensions. -/
structure Life where
  a : Field
  b : Field
  width : Int
  h : Int
  deriving DecidableEq, Repr

/-- Model of the process-wide `math/rand` source: `r k` is the raw
value underlying the `k`-th call to `rand.Intn`, reduced modulo the
requested bound so that the result lies in `[0, n)` exactly as
`rand.Intn n` guarantees for `n > 0`. -/
def randIntn (r : Nat → Nat) (k : Nat) (n : Int) : Int :=
  Int.ofNat (r k % n.toNat)

/-- Go `NewLife(width, h)`: allocates two empty fields and performs
`width*h/4` random placements `a.Set(rand.Intn(width), rand.Intn(h), true)`
on the current field.  The loop bound uses Go's integer division; a
non-positive bound means zero iterations, which `Int.toNat` captures. -/
def NewLife (width h : Int) (r : Nat → Nat) : Option Life :=
  ((List.range ((width * h) / 4).toNat).foldlM
      (fun (f : Field) (i : Nat) =>
        f.Set (randIntn r (2 * i) width) (randIntn r (2 * i + 1) h) true)
      (NewField width h)).map
    fun a => { a := a, b := NewField width h, width := width, h := h }

/-- Go `(*Life).Step()`: for every `y < h` and `x < width` (in source
order) writes `a.Next(x, y)` into the scratch field `b`, then swaps the
two field labels.  Every `Next` reads only the untouched `a`. -/
def Life.Step (g : Life) : Option Life :=
  ((List.range g.h.toNat).foldlM
      (fun (fb : Field) (y : Nat) => (List.range g.width.toNat).foldlM
        (fun (fb : Field) (x : Nat) => (g.a.Next x y).bind fun v => fb.Set x y v) fb)
      g.b).map
    fun fb => { a := fb, b := g.a, width := g.width, h := g.h }

/-- Go `(*Life).String()` (named `render` here because the method name
collides with Lean's `String` type): renders the current field row by
row — a `'*'` byte for an alive cell, `' '` for a dead one, `'\n'`
after each row. -/
def Life.render (g : Life) : Option String :=
  (List.range g.h.toNat).foldlM
    (fun (buf : String) (y : Nat) =>
      ((List.range g.width.toNat).foldlM
          (fun (buf : String) (x : Nat) => (g.a.Alive x y).map
            fun al => buf.push (if al then '*' else ' '))
          buf).map
        fun buf => buf.push '\n')
    ""

/-- `n` successive `Step` calls. -/
def Life.iter (g : Life) : Nat → Option Life
  | 0 => some g
  | n + 1 => g.Step.bind fun g2 => g2.iter n

/-! ### Specification-side helpers -/

/-- The stored cell value at row `y`, column `x` (total; out-of-range
reads give `false`).  Used to state what the Go accessors return. -/
def Field.cell (f : Field) (x y : Nat) : Bool := (f.s.getD y []).getD x false

/-- Well-formedness of a field: positive stored dimensions and a cell
matrix of exactly that shape.  `NewField` establishes it for positive
arguments and every operation preserves it. -/
def Field.WF (f : Field) : Prop :=
  0 < f.width ∧ 0 < f.h ∧ f.s.length = f.h.toNat ∧
    ∀ row ∈ f.s, row.length = f.width.toNat

/-- The pure (panic-free) reading of `Alive`: the stored cell at the
wrapped coordinates. -/
def Field.aliveB (f : Field) (x y : Int) : Bool :=
  f.cell ((x + f.width).tmod f.width).toNat ((y + f.h).tmod f.h).toNat

/-- The pure neighbour count, matching `neighborCount` wherever that
does not panic. -/
def Field.pureCount (f : Field) (x y : Int) : Nat :=
  neighborOffsets.foldl (fun n p => if f.aliveB (x + p.1) (y + p.2) then n + 1 else n) 0

/-- The pure transition rule, matching `Next` wherever it does not
panic. -/
def Field.pureNext (f : Field) (x y : Int) : Bool :=
  f.pureCount x y == 3 || (f.pureCount x y == 2 && f.aliveB x y)

/-- The simulation invariant: both fields are well-formed and carry the
simulation's dimensions. -/
def Life.Inv (g : Life) : Prop :=
  g.a.WF ∧ g.b.WF ∧ g.a.width = g.width ∧ g.a.h = g.h ∧
    g.b.width = g.width ∧ g.b.h = g.h

/-! ### Wrap arithmetic -/

theorem wrap_nonneg {W x : Int} (hx : -W ≤ x) : 0 ≤ (x + W).tmod W :=
  Int.tmod_nonneg _ (by omega)

theorem wrap_lt {W x : Int} (hW : 0 < W) : (x + W).tmod W < W :=
  Int.tmod_lt_of_pos _ hW

theorem wrap_eq_emod {W x : Int} (hW : 0 < W) (hx : -W ≤ x) :
    (x + W).tmod W = x % W := by
  rw [Int.tmod_eq_emod (by omega) (by omega)]
  have h : x + W = x + W * 1 := by ring
  rw [h, Int.add_mul_emod_self_left]

theorem wrap_id {W x : Int} (hW : 0 < W) (hx0 : 0 ≤ x) (hx : x < W) :
    (x + W).tmod W = x := by
  rw [wrap_eq_emod hW (by omega), Int.emod_eq_of_lt hx0 hx]

/-! ### Reading cells -/

theorem Field.idx_eq_cell {f : Field} (hf : f.WF) {x y : Int}
    (hx0 : 0 ≤ x) (hx : x < f.width) (hy0 : 0 ≤ y) (hy : y < f.h) :
    f.idx x y = some (f.cell x.toNat y.toNat) := by
  obtain ⟨hW, hH, hlen, hrows⟩ := hf
  have hyl : y.toNat < f.s.length := by omega
  have h1 : f.s[y.toNat]? = some f.s[y.toNat] := List.getElem?_eq_getElem hyl
  have hrl : f.s[y.toNat].length = f.width.toNat :=
    hrows _ (List.getElem_mem hyl)
  have hxl : x.toNat < f.s[y.toNat].length := by omega
  have h2 : f.s[y.toNat][x.toNat]? = some f.s[y.toNat][x.toNat] :=
    List.getElem?_eq_getElem hxl
  simp [Field.idx, hx0, hy0, h1, h2, Field.cell, List.getD_eq_getElem?_getD]

theorem Field.Alive_eq_aliveB {f : Field} (hf : f.WF) {x y : Int}
    (hx : -f.width ≤ x) (hy : -f.h ≤ y) :
    f.Alive x y = some (f.aliveB x y) := by
  have hW := hf.1
  have hH := hf.2.1
  rw [Field.Alive, Field.aliveB,
    Field.idx_eq_cell hf (wrap_nonneg hx) (wrap_lt hW) (wrap_nonneg hy) (wrap_lt hH)]

theorem Field.aliveB_inRange {f : Field} (hf : f.WF) {x y : Int}
    (hx0 : 0 ≤ x) (hx : x < f.width) (hy0 : 0 ≤ y) (hy : y < f.h) :
    f.aliveB x y = f.cell x.toNat y.toNat := by
  rw [Field.aliveB, wrap_id hf.1 hx0 hx, wrap_id hf.2.1 hy0 hy]

theorem Field.Alive_inRange {f : Field} (hf : f.WF) {x y : Int}
    (hx0 : 0 ≤ x) (hx : x < f.width) (hy0 : 0 ≤ y) (hy : y < f.h) :
    f.Alive x y = some (f.cell x.toNat y.toNat) := by
  rw [Field.Alive_eq_aliveB hf (by omega) (by omega),
    Field.aliveB_inRange hf hx0 hx hy0 hy]

/-! ### The transition rule -/

theorem Field.neighborCount_eq {f : Field} (hf : f.WF) {x y : Int}
    (hx0 : 0 ≤ x) (hx : x < f.width) (hy0 : 0 ≤ y) (hy : y < f.h) :
    f.neighborCount x y = some (f.pureCount x y) := by
  have hW := hf.1
  have hH := hf.2.1
  have ha : ∀ i j : Int, -1 ≤ i → i ≤ 1 → -1 ≤ j → j ≤ 1 →
      f.Alive (x + i) (y + j) = some (f.aliveB (x + i) (y + j)) := by
    intro i j h1 h2 h3 h4
    exact Field.Alive_eq_aliveB hf (by omega) (by omega)
  simp only [Field.neighborCount, Field.pureCount, neighborOffsets,
    List.foldlM, List.foldl,
    ha (-1) (-1) (by omega) (by omega) (by omega) (by omega),
    ha (-1) 0 (by omega) (by omega) (by omega) (by omega),
    ha (-1) 1 (by omega) (by omega) (by omega) (by omega),
    ha 0 (-1) (by omega) (by omega) (by omega) (by omega),
    ha 0 1 (by omega) (by omega) (by omega) (by omega),
    ha 1 (-1) (by omega) (by omega) (by omega) (by omega),
    ha 1 0 (by omega) (by omega) (by omega) (by omega),
    ha 1 1 (by omega) (by omega) (by omega) (by omega),
    Option.map_some', Option.some_bind, bind, pure]

theorem Field.Next_eq {f : Field} (hf : f.WF) {x y : Int}
    (hx0 : 0 ≤ x) (hx : x < f.width) (hy0 : 0 ≤ y) (hy : y < f.h) :
    f.Next x y = some (f.pureNext x y) := by
  rw [Field.Next, Field.neighborCount_eq hf hx0 hx hy0 hy, Option.some_bind]
  by_cases h3 : f.pureCount x y = 3
  · simp [h3, Field.pureNext]
  · by_cases h2 : f.pureCount x y = 2
    · simp [h2, h3, Field.pureNext,
        Field.Alive_eq_aliveB hf (show -f.width ≤ x by omega) (show -f.h ≤ y by omega)]
    · simp [h2, h3, Field.pureNext]

/-! ### Writing cells -/

/-- The pure effect of an in-range `Set`: replace row `y`'s entry at
column `x`. -/
def Field.setCell (f : Field) (x y : Nat) (b : Bool) : Field :=
  { f with s := f.s.set y ((f.s.getD y []).set x b) }

theorem Field.Set_eq_setCell {f : Field} (hf : f.WF) {x y : Nat} (b : Bool)
    (hx : x < f.width.toNat) (hy : y < f.h.toNat) :
    f.Set x y b = some (f.setCell x y b) := by
  obtain ⟨hW, hH, hlen, hrows⟩ := hf
  have hyl : y < f.s.length := by omega
  have h1 : f.s[y]? = some f.s[y] := List.getElem?_eq_getElem hyl
  have hrl : f.s[y].length = f.width.toNat := hrows _ (List.getElem_mem hyl)
  simp [Field.Set, h1, Field.setCell, List.getD_eq_getElem?_getD, hrl, hx, Int.toNat_ofNat]

theorem Field.setCell_width (f : Field) (x y : Nat) (b : Bool) :
    (f.setCell x y b).width = f.width := rfl

theorem Field.setCell_h (f : Field) (x y : Nat) (b : Bool) :
    (f.setCell x y b).h = f.h := rfl

theorem Field.setCell_WF {f : Field} (hf : f.WF) {x y : Nat} (b : Bool)
    (hy : y < f.h.toNat) : (f.setCell x y b).WF := by
  obtain ⟨hW, hH, hlen, hrows⟩ := hf
  have hyl : y < f.s.length := by omega
  have hmem : f.s.getD y [] ∈ f.s := by
    rw [List.getD_eq_getElem?_getD, List.getElem?_eq_getElem hyl, Option.getD_some]
    exact List.getElem_mem hyl
  refine ⟨hW, hH, by simpa [Field.setCell] using hlen, ?_⟩
  intro row hrow
  rcases List.mem_or_eq_of_mem_set hrow with h | h
  · exact hrows _ h
  · subst h
    rw [List.length_set]
    exact hrows _ hmem

/-- `cell` through `getElem?`, convenient for rewriting. -/
theorem Field.cell_eq (f : Field) (i j : Nat) :
    f.cell i j = (((f.s[j]?).getD [])[i]?).getD false := by
  simp only [Field.cell, List.getD_eq_getElem?_getD]

theorem Field.cell_setCell {f : Field} (hf : f.WF) {x y : Nat} (b : Bool)
    (hx : x < f.width.toNat) (hy : y < f.h.toNat) (i j : Nat) :
    (f.setCell x y b).cell i j = if i = x ∧ j = y then b else f.cell i j := by
  obtain ⟨hW, hH, hlen, hrows⟩ := hf
  have hyl : y < f.s.length := by omega
  have hrowd : f.s.getD y [] = f.s[y] := by
    rw [List.getD_eq_getElem?_getD, List.getElem?_eq_getElem hyl, Option.getD_some]
  have hrl : f.s[y].length = f.width.toNat := hrows _ (List.getElem_mem hyl)
  have h5 : f.s[y]? = some f.s[y] := List.getElem?_eq_getElem hyl
  by_cases hjy : j = y
  · subst hjy
    have h2 : (f.s.set j (f.s[j].set x b))[j]? = some (f.s[j].set x b) :=
      List.getElem?_set_self hyl
    by_cases hix : i = x
    · subst hix
      have h4 : (f.s[j].set i b)[i]? = some b := List.getElem?_set_self (by omega)
      simp [Field.cell_eq, Field.setCell, hrowd, h5, h2, h4]
    · have hxi : x ≠ i := fun hh => hix hh.symm
      have h4 : (f.s[j].set x b)[i]? = f.s[j][i]? := List.getElem?_set_ne hxi
      simp [Field.cell_eq, Field.setCell, hrowd, h2, h4, h5, hix]
  · have hyj : y ≠ j := fun hh => hjy hh.symm
    have h2 : (f.s.set y (f.s[y].set x b))[j]? = f.s[j]? := List.getElem?_set_ne hyj
    simp [Field.cell_eq, Field.setCell, hrowd, h5, h2, hjy]

/-! ### The `Step` sweep -/

theorem Field.foldRow_spec (fa : Field) (hfa : fa.WF) (y : Nat) (hy : y < fa.h.toNat) :
    ∀ (n : Nat), n ≤ fa.width.toNat → ∀ fb : Field, fb.WF →
      fb.width = fa.width → fb.h = fa.h →
      ∃ fb2, (List.range n).foldlM
          (fun (fb : Field) (x : Nat) => (fa.Next ↑x ↑y).bind fun v => fb.Set ↑x ↑y v) fb
          = some fb2 ∧
        fb2.width = fa.width ∧ fb2.h = fa.h ∧ fb2.WF ∧
        ∀ i j : Nat, fb2.cell i j =
          if j = y ∧ i < n then fa.pureNext ↑i ↑j else fb.cell i j := by
  intro n
  induction n with
  | zero =>
    intro _ fb hfb hw hh
    exact ⟨fb, rfl, hw, hh, hfb, fun i j => by simp⟩
  | succ n ih =>
    intro hn fb hfb hw hh
    obtain ⟨fb1, hfold1, hw1, hh1, hWF1, hcells1⟩ := ih (by omega) fb hfb hw hh
    have hx1 : (0 : Int) ≤ ↑n := by omega
    have hx2 : (↑n : Int) < fa.width := by omega
    have hy1 : (0 : Int) ≤ ↑y := by omega
    have hy2 : (↑y : Int) < fa.h := by omega
    have hnext : fa.Next ↑n ↑y = some (fa.pureNext ↑n ↑y) :=
      Field.Next_eq hfa hx1 hx2 hy1 hy2
    have hxb : n < fb1.width.toNat := by rw [hw1]; omega
    have hyb : y < fb1.h.toNat := by rw [hh1]; omega
    have hset : fb1.Set ↑n ↑y (fa.pureNext ↑n ↑y) =
        some (fb1.setCell n y (fa.pureNext ↑n ↑y)) :=
      Field.Set_eq_setCell hWF1 _ hxb hyb
    refine ⟨fb1.setCell n y (fa.pureNext ↑n ↑y), ?_, hw1, hh1,
      Field.setCell_WF hWF1 _ hyb, ?_⟩
    · rw [List.range_succ, List.foldlM_append, hfold1]
      simp [hnext, hset]
    · intro i j
      rw [Field.cell_setCell hWF1 _ hxb hyb i j]
      by_cases h1 : i = n ∧ j = y
      · obtain ⟨h1a, h1b⟩ := h1
        subst h1a; subst h1b
        simp
      · rw [if_neg h1, hcells1 i j]
        by_cases h2 : j = y ∧ i < n
        · rw [if_pos h2, if_pos ⟨h2.1, by omega⟩]
        · rw [if_neg h2, if_neg (by omega)]

theorem Field.foldGrid_spec (fa : Field) (hfa : fa.WF) :
    ∀ (m : Nat), m ≤ fa.h.toNat → ∀ fb : Field, fb.WF →
      fb.width = fa.width → fb.h = fa.h →
      ∃ fb2, (List.range m).foldlM
          (fun (fb : Field) (y : Nat) => (List.range fa.width.toNat).foldlM
            (fun (fb : Field) (x : Nat) => (fa.Next ↑x ↑y).bind fun v => fb.Set ↑x ↑y v) fb)
          fb = some fb2 ∧
        fb2.width = fa.width ∧ fb2.h = fa.h ∧ fb2.WF ∧
        ∀ i j : Nat, fb2.cell i j =
          if j < m ∧ i < fa.width.toNat then fa.pureNext ↑i ↑j else fb.cell i j := by
  intro m
  induction m with
  | zero =>
    intro _ fb hfb hw hh
    exact ⟨fb, rfl, hw, hh, hfb, fun i j => by simp⟩
  | succ m ih =>
    intro hm fb hfb hw hh
    obtain ⟨fb1, hfold1, hw1, hh1, hWF1, hcells1⟩ := ih (by omega) fb hfb hw hh
    obtain ⟨fb2, hfold2, hw2, hh2, hWF2, hcells2⟩ :=
      Field.foldRow_spec fa hfa m (by omega) fa.width.toNat (Nat.le_refl _)
        fb1 hWF1 hw1 hh1
    refine ⟨fb2, ?_, hw2, hh2, hWF2, ?_⟩
    · rw [List.range_succ, List.foldlM_append, hfold1]
      simp [hfold2]
    · intro i j
      rw [hcells2 i j]
      by_cases h1 : j = m ∧ i < fa.width.toNat
      · rw [if_pos h1, if_pos ⟨by omega, h1.2⟩]
      · rw [if_neg h1, hcells1 i j]
        by_cases h2 : j < m ∧ i < fa.width.toNat
        · rw [if_pos h2, if_pos ⟨by omega, h2.2⟩]
        · rw [if_neg h2, if_neg (by omega)]

theorem Life.Step_spec {g : Life} (hg : g.Inv) :
    ∃ g2, g.Step = some g2 ∧ g2.b = g.a ∧ g2.width = g.width ∧ g2.h = g.h ∧
      g2.Inv ∧
      ∀ i j : Nat, g2.a.cell i j =
        if j < g.h.toNat ∧ i < g.width.toNat then g.a.pureNext ↑i ↑j
        else g.b.cell i j := by
  obtain ⟨hfa, hfb, haw, hah, hbw, hbh⟩ := hg
  obtain ⟨fb2, hfold, hw2, hh2, hWF2, hcells⟩ :=
    Field.foldGrid_spec g.a hfa g.a.h.toNat (Nat.le_refl _) g.b hfb
      (by rw [hbw, haw]) (by rw [hbh, hah])
  refine ⟨⟨fb2, g.a, g.width, g.h⟩, ?_, rfl, rfl, rfl,
    ⟨hWF2, hfa, by rw [hw2, haw], by rw [hh2, hah], haw, hah⟩, ?_⟩
  · show g.Step = some _
    unfold Life.Step
    rw [show g.width = g.a.width from haw.symm, show g.h = g.a.h from hah.symm, hfold]
    rfl
  · intro i j
    show fb2.cell i j = _
    rw [hcells i j, show g.a.h = g.h from hah, show g.a.width = g.width from haw]

/-! ### Sign of the truncated remainder -/

theorem tmod_neg_dividend (a b : Int) : (-a).tmod b = -(a.tmod b) := by
  rw [Int.tmod_def, Int.tmod_def, Int.neg_tdiv]
  ring

theorem tmod_lt_zero {a b : Int} (ha : a < 0) (hnd : ¬ b ∣ a) : a.tmod b < 0 := by
  have h1 : (-a).tmod b = -(a.tmod b) := tmod_neg_dividend a b
  have h2 : 0 ≤ (-a).tmod b := Int.tmod_nonneg _ (by omega)
  have h3 : (-a).tmod b ≠ 0 := by
    intro h0
    exact hnd (Int.dvd_neg.mp (Int.dvd_iff_tmod_eq_zero.mpr h0))
  omega

/-! ### Decidability of the invariants (for concrete witnesses) -/

instance (f : Field) : Decidable f.WF := by unfold Field.WF; infer_instance

instance (g : Life) : Decidable g.Inv := by unfold Life.Inv; infer_instance

/-- A concrete 3×3 field used by the witnesses. -/
def sampleF : Field :=
  ⟨[[true, false, true], [false, true, false], [false, false, true]], 3, 3⟩

/-! ### Claim theorems -/

/-- C1: for every well-formed field and in-range cell `(x, y)`, `Next`
returns `true` iff the toroidally-wrapped live-neighbour count is 3, or
it is 2 and the cell itself is alive; for every other count (0, 1,
4..8) it returns `false` regardless of the cell's own state. -/
theorem C1_next_rule {f : Field} (hf : f.WF) {x y : Int}
    (hx0 : 0 ≤ x) (hx : x < f.width) (hy0 : 0 ≤ y) (hy : y < f.h) :
    ∃ n a, f.neighborCount x y = some n ∧ f.Alive x y = some a ∧
      f.Next x y = some (decide (n = 3) || (decide (n = 2) && a)) ∧
      (n ≠ 3 → n ≠ 2 → f.Next x y = some false) := by
  refine ⟨f.pureCount x y, f.aliveB x y, Field.neighborCount_eq hf hx0 hx hy0 hy,
    Field.Alive_eq_aliveB hf (by omega) (by omega), ?_, ?_⟩
  · rw [Field.Next_eq hf hx0 hx hy0 hy, Field.pureNext]
    by_cases h3 : f.pureCount x y = 3
    · simp [h3]
    · by_cases h2 : f.pureCount x y = 2 <;> simp [h2, h3]
  · intro h3 h2
    rw [Field.Next_eq hf hx0 hx hy0 hy, Field.pureNext]
    simp [h2, h3]

/-- Witness for C1 at a concrete field and cell. -/
theorem C1_witness :
    ∃ n a, sampleF.neighborCount 1 1 = some n ∧ sampleF.Alive 1 1 = some a ∧
      sampleF.Next 1 1 = some (decide (n = 3) || (decide (n = 2) && a)) ∧
      (n ≠ 3 → n ≠ 2 → sampleF.Next 1 1 = some false) :=
  C1_next_rule (by decide) (by decide) (by decide) (by decide) (by decide)

/-- Counterexample to C3 as stated: on a well-formed 2×2 field,
`Alive (-5) 0` does not return the stored boolean at the normalized
coordinates `((-5) mod 2, 0) = (1, 0)` — it panics (`none`), because
Go's single `+=` followed by truncated `%` leaves `-5 + 2 = -3` with a
negative remainder. -/
theorem C3_counterexample :
    (Field.mk [[true, false], [false, true]] 2 2).WF ∧
    ¬ ((Field.mk [[true, false], [false, true]] 2 2).Alive (-5) 0 =
      some ((Field.mk [[true, false], [false, true]] 2 2).cell
        ((-5 : Int) % 2).toNat 0)) := by decide

/-- C3 (amended): for a well-formed field and coordinates at most one
full wrap out of range (`x ≥ -W`, `y ≥ -H`), `Alive` normalizes each
coordinate independently into `[0, W)` / `[0, H)` by modulo arithmetic
(so `-1` maps to `W-1`) and returns the stored boolean there. -/
theorem C3_alive_normalizes {f : Field} (hf : f.WF) {x y : Int}
    (hx : -f.width ≤ x) (hy : -f.h ≤ y) :
    0 ≤ x % f.width ∧ x % f.width < f.width ∧ 0 ≤ y % f.h ∧ y % f.h < f.h ∧
    f.Alive x y = some (f.cell (x % f.width).toNat (y % f.h).toNat) := by
  have hW := hf.1
  have hH := hf.2.1
  refine ⟨Int.emod_nonneg x (by omega), Int.emod_lt_of_pos x hW,
    Int.emod_nonneg y (by omega), Int.emod_lt_of_pos y hH, ?_⟩
  rw [Field.Alive_eq_aliveB hf hx hy, Field.aliveB,
    wrap_eq_emod hW hx, wrap_eq_emod hH hy]

/-- Witness for C3 (amended): `-1` wraps to `W-1` on the sample field. -/
theorem C3_witness :
    0 ≤ (-1 : Int) % sampleF.width ∧ (-1 : Int) % sampleF.width < sampleF.width ∧
    0 ≤ (2 : Int) % sampleF.h ∧ (2 : Int) % sampleF.h < sampleF.h ∧
    sampleF.Alive (-1) 2 =
      some (sampleF.cell ((-1 : Int) % sampleF.width).toNat ((2 : Int) % sampleF.h).toNat) :=
  C3_alive_normalizes (by decide) (by decide) (by decide)

/-- C4: one-wrap boundary identities of `Alive` on every well-formed
field: `Alive (-1) 0 = Alive (W-1) 0`, `Alive W 0 = Alive 0 0`, and the
same on the y-axis. -/
theorem C4_toroidal_wrap {f : Field} (hf : f.WF) :
    f.Alive (-1) 0 = f.Alive (f.width - 1) 0 ∧
    f.Alive f.width 0 = f.Alive 0 0 ∧
    f.Alive 0 (-1) = f.Alive 0 (f.h - 1) ∧
    f.Alive 0 f.h = f.Alive 0 0 := by
  have hW := hf.1
  have hH := hf.2.1
  have ew1 : (-1 + f.width).tmod f.width = (f.width - 1 + f.width).tmod f.width := by
    rw [Int.tmod_eq_of_lt (by omega) (by omega),
      wrap_eq_emod hW (by omega), Int.emod_eq_of_lt (by omega) (by omega)]
    omega
  have ew2 : (f.width + f.width).tmod f.width = (0 + f.width).tmod f.width := by
    rw [wrap_eq_emod hW (by omega), Int.emod_self, wrap_id hW (by omega) (by omega)]
  have eh1 : (-1 + f.h).tmod f.h = (f.h - 1 + f.h).tmod f.h := by
    rw [Int.tmod_eq_of_lt (by omega) (by omega),
      wrap_eq_emod hH (by omega), Int.emod_eq_of_lt (by omega) (by omega)]
    omega
  have eh2 : (f.h + f.h).tmod f.h = (0 + f.h).tmod f.h := by
    rw [wrap_eq_emod hH (by omega), Int.emod_self, wrap_id hH (by omega) (by omega)]
  refine ⟨?_, ?_, ?_, ?_⟩
  · rw [Field.Alive, Field.Alive, ew1]
  · rw [Field.Alive, Field.Alive, ew2]
  · rw [Field.Alive, Field.Alive, eh1]
  · rw [Field.Alive, Field.Alive, eh2]

/-- Witness for C4 on the sample field. -/
theorem C4_witness :
    sampleF.Alive (-1) 0 = sampleF.Alive (sampleF.width - 1) 0 ∧
    sampleF.Alive sampleF.width 0 = sampleF.Alive 0 0 ∧
    sampleF.Alive 0 (-1) = sampleF.Alive 0 (sampleF.h - 1) ∧
    sampleF.Alive 0 sampleF.h = sampleF.Alive 0 0 :=
  C4_toroidal_wrap (by decide)

/-- Counterexample to C10 as stated: the claim predicts that the access
fails (panics) for every `x < -W`, but on a well-formed 3×3 field
`Alive (-6) 0` succeeds, because `-6 + 3 = -3` is exactly divisible by
3 and Go's truncated `%` then yields index 0. -/
theorem C10_counterexample :
    (Field.mk [[true, false, true], [false, true, false], [false, false, true]] 3 3).WF ∧
    (-6 : Int) < -(3 : Int) ∧
    (Field.mk [[true, false, true], [false, true, false], [false, false, true]] 3 3).Alive
      (-6) 0 = some true := by decide

/-- C10 (amended): on a well-formed field, `Alive x y` is total (the
indexing is in bounds) exactly when each axis either stays within one
full wrap (`x ≥ -W`) or is exactly divisible by the dimension (then the
truncated remainder is 0); within one wrap it returns the stored cell
at column `(x+W) tmod W` and row `(y+H) tmod H` (which equal `x mod W`
and `y mod H`).  In particular `Next`, which only passes offsets of
`-1, 0, +1` from in-range coordinates, stays within one wrap. -/
theorem C10_alive_totality {f : Field} (hf : f.WF) (x y : Int) :
    ((∃ b, f.Alive x y = some b) ↔
      ((-f.width ≤ x ∨ f.width ∣ x) ∧ (-f.h ≤ y ∨ f.h ∣ y))) ∧
    (-f.width ≤ x → -f.h ≤ y →
      f.Alive x y = some (f.cell ((x + f.width).tmod f.width).toNat
        ((y + f.h).tmod f.h).toNat)) := by
  obtain ⟨hW, hH, hlen, hrows⟩ := hf
  constructor
  · constructor
    · rintro ⟨b, hb⟩
      by_contra hc
      rw [not_and_or, not_or, not_or] at hc
      have hwrap : (x + f.width).tmod f.width < 0 ∨ (y + f.h).tmod f.h < 0 := by
        rcases hc with ⟨hx1, hx2⟩ | ⟨hy1, hy2⟩
        · left
          refine tmod_lt_zero (by omega) (fun hd => hx2 ?_)
          have h2 := dvd_sub hd (dvd_refl f.width)
          simpa using h2
        · right
          refine tmod_lt_zero (by omega) (fun hd => hy2 ?_)
          have h2 := dvd_sub hd (dvd_refl f.h)
          simpa using h2
      rw [Field.Alive, Field.idx] at hb
      rcases hwrap with h | h
      · rw [if_neg (by omega)] at hb
        exact Option.noConfusion hb
      · rw [if_neg (by omega)] at hb
        exact Option.noConfusion hb
    · rintro ⟨hxc, hyc⟩
      have hx0 : 0 ≤ (x + f.width).tmod f.width := by
        rcases hxc with h | h
        · exact wrap_nonneg h
        · rw [Int.tmod_eq_zero_of_dvd (dvd_add h (dvd_refl f.width))]
      have hxlt : (x + f.width).tmod f.width < f.width := Int.tmod_lt_of_pos _ hW
      have hy0 : 0 ≤ (y + f.h).tmod f.h := by
        rcases hyc with h | h
        · exact wrap_nonneg h
        · rw [Int.tmod_eq_zero_of_dvd (dvd_add h (dvd_refl f.h))]
      have hylt : (y + f.h).tmod f.h < f.h := Int.tmod_lt_of_pos _ hH
      refine ⟨f.cell ((x + f.width).tmod f.width).toNat ((y + f.h).tmod f.h).toNat, ?_⟩
      exact Field.idx_eq_cell ⟨hW, hH, hlen, hrows⟩ hx0 hxlt hy0 hylt
  · intro hx hy
    exact Field.Alive_eq_aliveB ⟨hW, hH, hlen, hrows⟩ hx hy

/-- Witness for C10 on the sample field. -/
theorem C10_witness :
    ((∃ b, sampleF.Alive (-2) 7 = some b) ↔
      ((-sampleF.width ≤ -2 ∨ sampleF.width ∣ -2) ∧ (-sampleF.h ≤ 7 ∨ sampleF.h ∣ 7))) ∧
    (-sampleF.width ≤ (-2 : Int) → -sampleF.h ≤ (7 : Int) →
      sampleF.Alive (-2) 7 = some (sampleF.cell
        (((-2 : Int) + sampleF.width).tmod sampleF.width).toNat
        (((7 : Int) + sampleF.h).tmod sampleF.h).toNat)) :=
  C10_alive_totality (by decide) (-2) 7

/-- A concrete simulation over `sampleF` used by the witnesses. -/
def sampleL : Life := ⟨sampleF, NewField 3 3, 3, 3⟩

/-- C2: for every simulation satisfying the structural invariant,
`Step` succeeds, writes `Next(x, y)` — computed from the pre-step
current field `a`, which is never mutated during the sweep — into the
scratch field at the same coordinates for every cell of the full range,
and swaps the two role labels (the new scratch is the old current
field, unchanged; no cell data is copied). -/
theorem C2_step_synchronous {g : Life} (hg : g.Inv) :
    ∃ g2, g.Step = some g2 ∧ g2.b = g.a ∧ g2.width = g.width ∧ g2.h = g.h ∧
      ∀ i j : Nat, i < g.width.toNat → j < g.h.toNat →
        g.a.Next ↑i ↑j = some (g2.a.cell i j) := by
  obtain ⟨g2, hstep, hba, hww, hhh, hinv2, hcells⟩ := Life.Step_spec hg
  obtain ⟨hfa, hfb, haw, hah, hbw, hbh⟩ := hg
  refine ⟨g2, hstep, hba, hww, hhh, ?_⟩
  intro i j hi hj
  rw [hcells i j, if_pos ⟨hj, hi⟩]
  have hW : 0 < g.a.width := hfa.1
  have hH : 0 < g.a.h := hfa.2.1
  exact Field.Next_eq hfa (by omega) (by rw [haw]; omega) (by omega) (by rw [hah]; omega)

/-- Witness for C2 on a concrete simulation. -/
theorem C2_witness :
    ∃ g2, sampleL.Step = some g2 ∧ g2.b = sampleL.a ∧
      g2.width = sampleL.width ∧ g2.h = sampleL.h ∧
      ∀ i j : Nat, i < sampleL.width.toNat → j < sampleL.h.toNat →
        sampleL.a.Next ↑i ↑j = some (g2.a.cell i j) :=
  C2_step_synchronous (by decide)

/-! ### Live-cell counting and `NewField` facts -/

/-- Number of live cells stored in a field. -/
def Field.liveCount (f : Field) : Nat :=
  (f.s.map (fun row => row.count true)).sum

theorem count_set_le (l : List Bool) (i : Nat) (b c : Bool) :
    (l.set i b).count c ≤ l.count c + 1 := by
  induction l generalizing i with
  | nil => simp
  | cons hd tl ih =>
    cases i with
    | zero =>
      cases hb : (b == c) <;> cases hh : (hd == c) <;>
        simp [List.set, List.count_cons, hb, hh] <;> omega
    | succ i =>
      have := ih i
      simp only [List.set, List.count_cons]
      cases hh : (hd == c) <;> simp [hh] <;> omega

theorem countRows_set_le (s : List (List Bool)) (y x : Nat) (b : Bool) :
    ((s.set y ((s.getD y []).set x b)).map (fun row => row.count true)).sum ≤
      (s.map (fun row => row.count true)).sum + 1 := by
  induction s generalizing y with
  | nil => simp
  | cons hd tl ih =>
    cases y with
    | zero =>
      have := count_set_le hd x b true
      simp only [List.set, List.getD_cons_zero, List.map_cons, List.sum_cons]
      omega
    | succ y =>
      have := ih y
      simp only [List.set, List.getD_cons_succ, List.map_cons, List.sum_cons]
      omega

theorem Field.liveCount_setCell_le (f : Field) (x y : Nat) (b : Bool) :
    (f.setCell x y b).liveCount ≤ f.liveCount + 1 :=
  countRows_set_le f.s y x b

theorem NewField_WF {width h : Int} (hW : 0 < width) (hH : 0 < h) :
    (NewField width h).WF := by
  refine ⟨hW, hH, by simp [NewField], ?_⟩
  intro row hrow
  rw [List.eq_of_mem_replicate hrow]
  simp [NewField]

theorem NewField_cell (width h : Int) (i j : Nat) :
    (NewField width h).cell i j = false := by
  rw [Field.cell_eq]
  by_cases hj : j < h.toNat
  · rw [show (NewField width h).s[j]? = some (List.replicate width.toNat false) by
      simp [NewField, List.getElem?_replicate, hj]]
    by_cases hi : i < width.toNat
    · simp [List.getElem?_replicate, hi]
    · have hnone : (List.replicate width.toNat false)[i]? = none :=
        List.getElem?_eq_none (by simp; omega)
      rw [Option.getD_some, hnone]
      rfl
  · have hnone : (NewField width h).s[j]? = none :=
      List.getElem?_eq_none (by simp [NewField]; omega)
    rw [hnone]
    rfl

theorem NewField_liveCount (width h : Int) : (NewField width h).liveCount = 0 := by
  simp [NewField, Field.liveCount, List.map_replicate, List.count_replicate]

/-! ### The seeding loop of `NewLife` -/

theorem seed_spec (width h : Int) (hW : 0 < width) (hH : 0 < h) (r : Nat → Nat) :
    ∀ (n : Nat) (f : Field), f.WF → f.width = width → f.h = h →
      ∃ f2, (List.range n).foldlM
          (fun (f : Field) (i : Nat) =>
            f.Set (randIntn r (2 * i) width) (randIntn r (2 * i + 1) h) true) f
          = some f2 ∧
        f2.WF ∧ f2.width = width ∧ f2.h = h ∧
        f2.liveCount ≤ f.liveCount + n := by
  intro n
  induction n with
  | zero =>
    intro f hf hw hh
    exact ⟨f, rfl, hf, hw, hh, by omega⟩
  | succ n ih =>
    intro f hf hw hh
    obtain ⟨f1, hfold1, hWF1, hw1, hh1, hcnt1⟩ := ih f hf hw hh
    have hxb : r (2 * n) % width.toNat < f1.width.toNat := by
      rw [hw1]
      exact Nat.mod_lt _ (by omega)
    have hyb : r (2 * n + 1) % h.toNat < f1.h.toNat := by
      rw [hh1]
      exact Nat.mod_lt _ (by omega)
    have hset : f1.Set (randIntn r (2 * n) width) (randIntn r (2 * n + 1) h) true =
        some (f1.setCell (r (2 * n) % width.toNat) (r (2 * n + 1) % h.toNat) true) := by
      rw [show randIntn r (2 * n) width = ((r (2 * n) % width.toNat : Nat) : Int) from rfl,
        show randIntn r (2 * n + 1) h = ((r (2 * n + 1) % h.toNat : Nat) : Int) from rfl]
      exact Field.Set_eq_setCell hWF1 true hxb hyb
    refine ⟨f1.setCell (r (2 * n) % width.toNat) (r (2 * n + 1) % h.toNat) true, ?_,
      Field.setCell_WF hWF1 true hyb, by simp [Field.setCell_width, hw1],
      by simp [Field.setCell_h, hh1], ?_⟩
    · rw [List.range_succ, List.foldlM_append, hfold1]
      simp [hset]
    · have := f1.liveCount_setCell_le (r (2 * n) % width.toNat)
        (r (2 * n + 1) % h.toNat) true
      omega

/-- C8: for positive dimensions and any realization of the random
source, `NewLife` allocates two grids of the requested dimensions with
all cells dead, performs exactly `floor(width*h/4)` random in-range
placements on the current grid (so construction never panics), leaving
at most `floor(width*h/4)` live cells in the current grid, and the
scratch grid is entirely dead. -/
theorem C8_newlife (width h : Int) (hW : 0 < width) (hH : 0 < h) (r : Nat → Nat) :
    ∃ g, NewLife width h r = some g ∧
      g.width = width ∧ g.h = h ∧ g.Inv ∧
      g.a.liveCount ≤ ((width * h) / 4).toNat ∧
      g.a.liveCount ≤ (width.toNat * h.toNat) / 4 ∧
      g.b = NewField width h ∧
      (∀ i j : Nat, g.b.cell i j = false) := by
  obtain ⟨f2, hfold, hWF2, hw2, hh2, hcnt⟩ :=
    seed_spec width h hW hH r ((width * h) / 4).toNat (NewField width h)
      (NewField_WF hW hH) rfl rfl
  have hdiv : ((width * h) / 4).toNat = (width.toNat * h.toNat) / 4 := by
    obtain ⟨wn, rfl⟩ : ∃ wn : Nat, width = ↑wn := ⟨width.toNat, by omega⟩
    obtain ⟨hn, rfl⟩ : ∃ hn : Nat, h = ↑hn := ⟨h.toNat, by omega⟩
    rw [← Int.natCast_mul]
    simp only [Int.toNat_natCast]
    generalize wn * hn = m
    omega
  have hcnt1 : f2.liveCount ≤ ((width * h) / 4).toNat := by
    rw [NewField_liveCount width h] at hcnt
    simpa using hcnt
  refine ⟨⟨f2, NewField width h, width, h⟩, ?_, rfl, rfl,
    ⟨hWF2, NewField_WF hW hH, hw2, hh2, rfl, rfl⟩, hcnt1, ?_, rfl,
    fun i j => NewField_cell width h i j⟩
  · rw [NewLife, hfold]
    rfl
  · rw [← hdiv]
    exact hcnt1

/-- Witness for C8 at concrete dimensions and a concrete stream. -/
theorem C8_witness :
    ∃ g, NewLife 4 3 (fun k => k * k + 2) = some g ∧
      g.width = 4 ∧ g.h = 3 ∧ g.Inv ∧
      g.a.liveCount ≤ (((4 : Int) * 3) / 4).toNat ∧
      g.a.liveCount ≤ ((4 : Int).toNat * (3 : Int).toNat) / 4 ∧
      g.b = NewField 4 3 ∧
      (∀ i j : Nat, g.b.cell i j = false) :=
  C8_newlife 4 3 (by decide) (by decide) (fun k => k * k + 2)

/-- C9: for positive construction dimensions, the structural invariant
holds initially (for every realization of the random source) and is
preserved: `Step` succeeds and keeps both grids at exactly the
construction-time dimensions (no resizing); every in-range coordinate
of either grid holds a defined boolean (reads do not panic); and an
in-range `Set` succeeds and preserves shape and well-formedness.
(`Alive`, `Next` and `render` are pure queries in the model: they do
not mutate anything, so preservation by them is immediate.) -/
theorem C9_dimension_invariant (width h : Int) (hW : 0 < width) (hH : 0 < h) :
    (∀ r : Nat → Nat, ∃ g, NewLife width h r = some g ∧ g.Inv ∧
      g.width = width ∧ g.h = h) ∧
    (∀ g : Life, g.Inv → g.width = width → g.h = h →
      (∃ g2, g.Step = some g2 ∧ g2.Inv ∧ g2.width = width ∧ g2.h = h ∧
        g2.a.width = width ∧ g2.a.h = h ∧ g2.b.width = width ∧ g2.b.h = h) ∧
      (∀ x y : Nat, x < width.toNat → y < h.toNat →
        (g.a.idx ↑x ↑y).isSome ∧ (g.b.idx ↑x ↑y).isSome) ∧
      (∀ x y : Nat, x < width.toNat → y < h.toNat → ∀ b : Bool,
        ∃ f2, g.a.Set ↑x ↑y b = some f2 ∧ f2.WF ∧
          f2.width = width ∧ f2.h = h)) := by
  constructor
  · intro r
    obtain ⟨f2, hfold, hWF2, hw2, hh2, _⟩ :=
      seed_spec width h hW hH r ((width * h) / 4).toNat (NewField width h)
        (NewField_WF hW hH) rfl rfl
    refine ⟨⟨f2, NewField width h, width, h⟩, ?_,
      ⟨hWF2, NewField_WF hW hH, hw2, hh2, rfl, rfl⟩, rfl, rfl⟩
    rw [NewLife, hfold]
    rfl
  · intro g hg hgw hgh
    obtain ⟨hfa, hfb, haw, hah, hbw, hbh⟩ := hg
    refine ⟨?_, ?_, ?_⟩
    · obtain ⟨g2, hstep, _, hww, hhh, hinv2, _⟩ :=
        Life.Step_spec ⟨hfa, hfb, haw, hah, hbw, hbh⟩
      exact ⟨g2, hstep, hinv2, by omega, by omega,
        by rw [hinv2.2.2.1]; omega, by rw [hinv2.2.2.2.1]; omega,
        by rw [hinv2.2.2.2.2.1]; omega, by rw [hinv2.2.2.2.2.2]; omega⟩
    · intro x y hx hy
      constructor
      · rw [Field.idx_eq_cell hfa (by omega) (by rw [haw, hgw]; omega)
          (by omega) (by rw [hah, hgh]; omega)]
        rfl
      · rw [Field.idx_eq_cell hfb (by omega) (by rw [hbw, hgw]; omega)
          (by omega) (by rw [hbh, hgh]; omega)]
        rfl
    · intro x y hx hy b
      have hxa : x < g.a.width.toNat := by rw [haw, hgw]; omega
      have hya : y < g.a.h.toNat := by rw [hah, hgh]; omega
      exact ⟨g.a.setCell x y b, Field.Set_eq_setCell hfa b hxa hya,
        Field.setCell_WF hfa b hya, by rw [Field.setCell_width, haw, hgw],
        by rw [Field.setCell_h, hah, hgh]⟩

/-- Witness for C9 at concrete dimensions. -/
theorem C9_witness :
    (∀ r : Nat → Nat, ∃ g, NewLife 3 3 r = some g ∧ g.Inv ∧
      g.width = 3 ∧ g.h = 3) ∧
    (∀ g : Life, g.Inv → g.width = 3 → g.h = 3 →
      (∃ g2, g.Step = some g2 ∧ g2.Inv ∧ g2.width = 3 ∧ g2.h = 3 ∧
        g2.a.width = 3 ∧ g2.a.h = 3 ∧ g2.b.width = 3 ∧ g2.b.h = 3) ∧
      (∀ x y : Nat, x < (3 : Int).toNat → y < (3 : Int).toNat →
        (g.a.idx ↑x ↑y).isSome ∧ (g.b.idx ↑x ↑y).isSome) ∧
      (∀ x y : Nat, x < (3 : Int).toNat → y < (3 : Int).toNat → ∀ b : Bool,
        ∃ f2, g.a.Set ↑x ↑y b = some f2 ∧ f2.WF ∧
          f2.width = 3 ∧ f2.h = 3)) :=
  C9_dimension_invariant 3 3 (by decide) (by decide)

/-! ### Rendering -/

theorem renderRow_spec (fa : Field) (hfa : fa.WF) (y : Nat) (hy : y < fa.h.toNat) :
    ∀ (n : Nat), n ≤ fa.width.toNat → ∀ buf : String,
      (List.range n).foldlM
          (fun (buf : String) (x : Nat) =>
            (fa.Alive ↑x ↑y).map fun al => buf.push (if al then '*' else ' ')) buf
        = some ⟨buf.data ++ ((List.range n).map fun x =>
            if fa.cell x y then '*' else ' ')⟩ := by
  intro n
  induction n with
  | zero =>
    intro _ buf
    simp
  | succ n ih =>
    intro hn buf
    have hW : 0 < fa.width := hfa.1
    have hH : 0 < fa.h := hfa.2.1
    have hcell : fa.Alive ↑n ↑y = some (fa.cell n y) := by
      have := Field.Alive_inRange hfa (x := ↑n) (y := ↑y)
        (by omega) (by omega) (by omega) (by omega)
      simpa using this
    rw [List.range_succ, List.foldlM_append, ih (by omega) buf]
    simp only [List.foldlM_cons, List.foldlM_nil, hcell, Option.map_some',
      Option.some_bind, bind, pure]
    refine congrArg some (String.ext ?_)
    simp [List.append_assoc]

theorem render_spec {g : Life} (hg : g.Inv) :
    g.render = some ⟨((List.range g.h.toNat).map fun y =>
      ((List.range g.width.toNat).map fun x =>
        if g.a.cell x y then '*' else ' ') ++ ['\n']).flatten⟩ := by
  obtain ⟨hfa, hfb, haw, hah, hbw, hbh⟩ := hg
  suffices hrows : ∀ (m : Nat), m ≤ g.h.toNat → ∀ buf : String,
      (List.range m).foldlM
          (fun (buf : String) (y : Nat) =>
            ((List.range g.width.toNat).foldlM
                (fun (buf : String) (x : Nat) => (g.a.Alive ↑x ↑y).map
                  fun al => buf.push (if al then '*' else ' '))
                buf).map
              fun buf => buf.push '\n')
          buf
        = some ⟨buf.data ++ ((List.range m).map fun y =>
            ((List.range g.width.toNat).map fun x =>
              if g.a.cell x y then '*' else ' ') ++ ['\n']).flatten⟩ by
    have := hrows g.h.toNat (Nat.le_refl _) ""
    rw [Life.render, this]
    rfl
  intro m
  induction m with
  | zero =>
    intro _ buf
    simp
  | succ m ih =>
    intro hm buf
    rw [List.range_succ, List.foldlM_append, ih (by omega) buf]
    have hrow := renderRow_spec g.a hfa m (by omega) g.width.toNat
      (by omega) ⟨buf.data ++ ((List.range m).map fun y =>
        ((List.range g.width.toNat).map fun x =>
          if g.a.cell x y then '*' else ' ') ++ ['\n']).flatten⟩
    simp only [List.foldlM_cons, List.foldlM_nil, hrow, Option.map_some',
      Option.some_bind, bind, pure]
    refine congrArg some (String.ext ?_)
    simp [List.map_append, List.flatten_append, List.append_assoc]

/-- C7: for every simulation satisfying the structural invariant,
`render` (the Go `String` method) succeeds and its text is exactly the
rows `y = 0, 1, ...` in order, each row being the columns
`x = 0, 1, ...` in order rendered as `'*'` for an alive cell and `' '`
(an explicit glyph, not omission) for a dead cell, followed by `'\n'`;
hence exactly `height` lines of exactly `width` characters, of total
length `height * (width + 1)`, and the output is a pure function of the
current grid's cell states: any simulation with identical in-range cell
states renders byte-identically. -/
theorem C7_render_shape {g : Life} (hg : g.Inv) :
    ∃ s, g.render = some s ∧
      s.data = ((List.range g.h.toNat).map fun y =>
        ((List.range g.width.toNat).map fun x =>
          if g.a.cell x y then '*' else ' ') ++ ['\n']).flatten ∧
      s.length = g.h.toNat * (g.width.toNat + 1) ∧
      (∀ g2 : Life, g2.Inv → g2.width = g.width → g2.h = g.h →
        (∀ x y : Nat, x < g.width.toNat → y < g.h.toNat →
          g2.a.cell x y = g.a.cell x y) →
        g2.render = g.render) := by
  refine ⟨_, render_spec hg, rfl, ?_, ?_⟩
  · show (((List.range g.h.toNat).map fun y =>
        ((List.range g.width.toNat).map fun x =>
          if g.a.cell x y then '*' else ' ') ++ ['\n']).flatten).length = _
    rw [List.length_flatten, List.map_map]
    have hconst : ∀ y ∈ List.range g.h.toNat,
        (List.length ∘ fun y => ((List.range g.width.toNat).map fun x =>
          if g.a.cell x y then '*' else ' ') ++ ['\n']) y
          = g.width.toNat + 1 := by
      intro y _
      simp
    rw [List.map_congr_left hconst]
    simp [List.map_const', Nat.mul_comm]
  · intro g2 hg2 hw2 hh2 hcells
    rw [render_spec hg2, render_spec hg]
    have hwn : g2.width.toNat = g.width.toNat := by rw [hw2]
    have hhn : g2.h.toNat = g.h.toNat := by rw [hh2]
    rw [hwn, hhn]
    have : ∀ y ∈ List.range g.h.toNat,
        ((List.range g.width.toNat).map fun x =>
          if g2.a.cell x y then '*' else ' ') ++ ['\n']
          = ((List.range g.width.toNat).map fun x =>
            if g.a.cell x y then '*' else ' ') ++ ['\n'] := by
      intro y hy
      rw [List.mem_range] at hy
      have : ∀ x ∈ List.range g.width.toNat,
          (if g2.a.cell x y then '*' else ' ')
            = (if g.a.cell x y then '*' else ' ') := by
        intro x hx
        rw [List.mem_range] at hx
        rw [hcells x y hx hy]
      rw [List.map_congr_left this]
    rw [List.map_congr_left this]

/-- Witness for C7 on a concrete simulation. -/
theorem C7_witness :
    ∃ s, sampleL.render = some s ∧
      s.data = ((List.range sampleL.h.toNat).map fun y =>
        ((List.range sampleL.width.toNat).map fun x =>
          if sampleL.a.cell x y then '*' else ' ') ++ ['\n']).flatten ∧
      s.length = sampleL.h.toNat * (sampleL.width.toNat + 1) ∧
      (∀ g2 : Life, g2.Inv → g2.width = sampleL.width → g2.h = sampleL.h →
        (∀ x y : Nat, x < sampleL.width.toNat → y < sampleL.h.toNat →
          g2.a.cell x y = sampleL.a.cell x y) →
        g2.render = sampleL.render) :=
  C7_render_shape (by decide)

/-! ### Product patterns and their neighbour counts -/

/-- One-step toroidal wrap of a single coordinate, as `Alive` computes
it. -/
def wrapI (W t : Int) : Int := (t + W).tmod W

theorem wrapI_id {W t : Int} (hW : 0 < W) (h0 : 0 ≤ t) (h1 : t < W) :
    wrapI W t = t := wrap_id hW h0 h1

theorem wrapI_neg_one {W : Int} (hW : 0 < W) : wrapI W (-1) = W - 1 := by
  rw [wrapI, Int.tmod_eq_of_lt (by omega) (by omega)]
  omega

theorem wrapI_top {W : Int} (hW : 0 < W) : wrapI W W = 0 := by
  rw [wrapI, wrap_eq_emod hW (by omega), Int.emod_self]

/-- Count of up to three live flags. -/
def n3 (a b c : Bool) : Nat := cond a 1 0 + cond b 1 0 + cond c 1 0

/-- On a field whose in-range cells agree with a pattern `p`, `aliveB`
evaluates `p` at the wrapped coordinates. -/
theorem Field.aliveB_pattern {f : Field} (hf : f.WF) {p : Int → Int → Bool}
    (hcells : ∀ i j : Nat, i < f.width.toNat → j < f.h.toNat → f.cell i j = p ↑i ↑j)
    {x y : Int} (hx : -f.width ≤ x) (hy : -f.h ≤ y) :
    f.aliveB x y = p (wrapI f.width x) (wrapI f.h y) := by
  have hW := hf.1
  have hH := hf.2.1
  have hx0 := wrap_nonneg hx
  have hx1 := wrap_lt (W := f.width) (x := x) hW
  have hy0 := wrap_nonneg hy
  have hy1 := wrap_lt (W := f.h) (x := y) hH
  rw [Field.aliveB, hcells _ _ (by omega) (by omega),
    Int.toNat_of_nonneg hx0, Int.toNat_of_nonneg hy0]
  rfl

/-- The neighbour count of a cell whose 8 neighbours carry a product
pattern `A i && B j` is the product of the per-axis counts minus the
centre flag. -/
theorem Field.pureCount_product (f : Field) (x y : Int) (A B : Int → Bool)
    (hAB : ∀ i j : Int, -1 ≤ i → i ≤ 1 → -1 ≤ j → j ≤ 1 → ¬(i = 0 ∧ j = 0) →
      f.aliveB (x + i) (y + j) = (A i && B j)) :
    f.pureCount x y =
      n3 (A (-1)) (A 0) (A 1) * n3 (B (-1)) (B 0) (B 1) - cond (A 0 && B 0) 1 0 := by
  have h1 := hAB (-1) (-1) (by omega) (by omega) (by omega) (by omega) (by omega)
  have h2 := hAB (-1) 0 (by omega) (by omega) (by omega) (by omega) (by omega)
  have h3 := hAB (-1) 1 (by omega) (by omega) (by omega) (by omega) (by omega)
  have h4 := hAB 0 (-1) (by omega) (by omega) (by omega) (by omega) (by omega)
  have h5 := hAB 0 1 (by omega) (by omega) (by omega) (by omega) (by omega)
  have h6 := hAB 1 (-1) (by omega) (by omega) (by omega) (by omega) (by omega)
  have h7 := hAB 1 0 (by omega) (by omega) (by omega) (by omega) (by omega)
  have h8 := hAB 1 1 (by omega) (by omega) (by omega) (by omega) (by omega)
  simp only [Field.pureCount, neighborOffsets, List.foldl, h1, h2, h3, h4, h5, h6, h7, h8]
  cases A (-1) <;> cases A 0 <;> cases A 1 <;>
    cases B (-1) <;> cases B 0 <;> cases B 1 <;> rfl

/-- `pureNext` of a cell carrying a product pattern, in terms of the
per-axis counts. -/
theorem Field.pureNext_product (f : Field) (x y : Int) (A B : Int → Bool)
    (hAB : ∀ i j : Int, -1 ≤ i → i ≤ 1 → -1 ≤ j → j ≤ 1 → ¬(i = 0 ∧ j = 0) →
      f.aliveB (x + i) (y + j) = (A i && B j))
    (hself : f.aliveB x y = (A 0 && B 0)) :
    f.pureNext x y =
      ((n3 (A (-1)) (A 0) (A 1) * n3 (B (-1)) (B 0) (B 1) - cond (A 0 && B 0) 1 0 == 3)
        || (n3 (A (-1)) (A 0) (A 1) * n3 (B (-1)) (B 0) (B 1) - cond (A 0 && B 0) 1 0 == 2
            && (A 0 && B 0))) := by
  rw [Field.pureNext, Field.pureCount_product f x y A B hAB, hself]

/-! ### The 2×2 block pattern (C5) -/

/-- Membership of a single coordinate in the two-wide block span
`{lo, lo+1}`. -/
def inBlockAxis (lo t : Int) : Bool := decide (t = lo ∨ t = lo + 1)

/-- The 2×2 block pattern with top-left corner `(bx, by)`. -/
def blockP (bx byy : Int) : Int → Int → Bool := fun a b =>
  inBlockAxis bx a && inBlockAxis byy b

/-- Per-axis analysis of the block span on a torus of size `W ≥ 4`:
on the span the three-window count is 2, off the span it is at most 1. -/
theorem block_axis {W lo x : Int} (hW : 4 ≤ W) (hlo0 : 0 ≤ lo) (hlo1 : lo + 1 ≤ W - 1)
    (hx0 : 0 ≤ x) (hx1 : x < W) :
    (inBlockAxis lo (wrapI W (x + 0)) = true ∧
      n3 (inBlockAxis lo (wrapI W (x + -1))) (inBlockAxis lo (wrapI W (x + 0)))
        (inBlockAxis lo (wrapI W (x + 1))) = 2) ∨
    (inBlockAxis lo (wrapI W (x + 0)) = false ∧
      n3 (inBlockAxis lo (wrapI W (x + -1))) (inBlockAxis lo (wrapI W (x + 0)))
        (inBlockAxis lo (wrapI W (x + 1))) ≤ 1) := by
  have e0 : wrapI W (x + 0) = x := by
    rw [show x + 0 = x by omega]
    exact wrapI_id (by omega) hx0 hx1
  have hcase : x = 0 ∨ x = W - 1 ∨ (1 ≤ x ∧ x ≤ W - 2) := by omega
  rcases hcase with h | h | h
  · have em : wrapI W (x + -1) = W - 1 := by
      rw [show x + -1 = -1 by omega]
      exact wrapI_neg_one (by omega)
    have ep : wrapI W (x + 1) = x + 1 := wrapI_id (by omega) (by omega) (by omega)
    rw [e0, em, ep]
    simp only [inBlockAxis, n3, Bool.cond_decide, decide_eq_true_eq,
      decide_eq_false_iff_not]
    split_ifs <;> omega
  · have em : wrapI W (x + -1) = x - 1 := by
      rw [show x + -1 = x - 1 by omega]
      exact wrapI_id (by omega) (by omega) (by omega)
    have ep : wrapI W (x + 1) = 0 := by
      rw [show x + 1 = W by omega]
      exact wrapI_top (by omega)
    rw [e0, em, ep]
    simp only [inBlockAxis, n3, Bool.cond_decide, decide_eq_true_eq,
      decide_eq_false_iff_not]
    split_ifs <;> omega
  · have em : wrapI W (x + -1) = x - 1 := by
      rw [show x + -1 = x - 1 by omega]
      exact wrapI_id (by omega) (by omega) (by omega)
    have ep : wrapI W (x + 1) = x + 1 := wrapI_id (by omega) (by omega) (by omega)
    rw [e0, em, ep]
    simp only [inBlockAxis, n3, Bool.cond_decide, decide_eq_true_eq,
      decide_eq_false_iff_not]
    split_ifs <;> omega

/-- On a field carrying exactly a non-wrapping 2×2 block, the
transition rule reproduces the block at every in-range cell. -/
theorem block_step_cell {f : Field} (hf : f.WF) {bx byy : Int}
    (hW4 : 4 ≤ f.width) (hH4 : 4 ≤ f.h)
    (hbx0 : 0 ≤ bx) (hbx1 : bx + 1 ≤ f.width - 1)
    (hby0 : 0 ≤ byy) (hby1 : byy + 1 ≤ f.h - 1)
    (hcells : ∀ i j : Nat, i < f.width.toNat → j < f.h.toNat →
      f.cell i j = blockP bx byy ↑i ↑j)
    {x y : Int} (hx0 : 0 ≤ x) (hx : x < f.width) (hy0 : 0 ≤ y) (hy : y < f.h) :
    f.pureNext x y = blockP bx byy x y := by
  have hW : 0 < f.width := by omega
  have hH : 0 < f.h := by omega
  have hAB : ∀ i j : Int, -1 ≤ i → i ≤ 1 → -1 ≤ j → j ≤ 1 → ¬(i = 0 ∧ j = 0) →
      f.aliveB (x + i) (y + j) =
        ((fun i => inBlockAxis bx (wrapI f.width (x + i))) i &&
          (fun j => inBlockAxis byy (wrapI f.h (y + j))) j) := by
    intro i j h1 h2 h3 h4 _
    exact Field.aliveB_pattern hf hcells (by omega) (by omega)
  have ex : wrapI f.width (x + 0) = x := by
    rw [show x + 0 = x by omega]
    exact wrapI_id hW hx0 hx
  have ey : wrapI f.h (y + 0) = y := by
    rw [show y + 0 = y by omega]
    exact wrapI_id hH hy0 hy
  have hself : f.aliveB x y =
      ((fun i => inBlockAxis bx (wrapI f.width (x + i))) 0 &&
        (fun j => inBlockAxis byy (wrapI f.h (y + j))) 0) := by
    have h := Field.aliveB_pattern hf hcells (x := x) (y := y) (by omega) (by omega)
    rw [h]
    show blockP bx byy (wrapI f.width x) (wrapI f.h y) = _
    simp only [blockP]
    rw [show x + 0 = x by omega, show y + 0 = y by omega]
  rw [Field.pureNext_product f x y _ _ hAB hself]
  have hbp : blockP bx byy x y =
      (inBlockAxis bx (wrapI f.width (x + 0)) && inBlockAxis byy (wrapI f.h (y + 0))) := by
    rw [ex, ey]
    rfl
  rw [hbp]
  rcases block_axis hW4 hbx0 hbx1 hx0 hx with ⟨ha0, han⟩ | ⟨ha0, han⟩ <;>
    rcases block_axis hH4 hby0 hby1 hy0 hy with ⟨hb0, hbn⟩ | ⟨hb0, hbn⟩
  · rw [han, hbn, ha0, hb0]
    rfl
  · rw [hb0] at hbn
    rw [han, ha0, hb0]
    simp only [Bool.and_false, Bool.and_true, Bool.or_false]
    have h3 : ∀ m : Nat, m ≤ 1 → (2 * m - cond false 1 0 == 3) = false := by
      intro m hm
      simp only [beq_eq_false_iff_ne, ne_eq]
      omega
    exact h3 _ hbn
  · rw [ha0] at han
    rw [hbn, ha0, hb0]
    simp only [Bool.false_and, Bool.and_false, Bool.or_false]
    have h3 : ∀ m : Nat, m ≤ 1 → (m * 2 - cond false 1 0 == 3) = false := by
      intro m hm
      simp only [beq_eq_false_iff_ne, ne_eq]
      omega
    exact h3 _ han
  · rw [ha0] at han
    rw [hb0] at hbn
    rw [ha0, hb0]
    simp only [Bool.false_and, Bool.and_false, Bool.or_false]
    have h3 : ∀ m k : Nat, m ≤ 1 → k ≤ 1 → (m * k - cond false 1 0 == 3) = false := by
      intro m k hm hk
      simp only [beq_eq_false_iff_ne, ne_eq]
      have hm' : m = 0 ∨ m = 1 := by omega
      rcases hm' with rfl | rfl <;> omega
    exact h3 _ _ han hbn

/-- Iterating `Step` preserves the exact 2×2-block configuration. -/
theorem block_iter_aux {W H bx byy : Int}
    (hW : 4 ≤ W) (hH : 4 ≤ H) (hbx : 0 ≤ bx) (hbx1 : bx + 1 ≤ W - 1)
    (hby : 0 ≤ byy) (hby1 : byy + 1 ≤ H - 1) :
    ∀ (n : Nat) (g : Life), g.Inv → g.width = W → g.h = H →
      (∀ i : Nat, i < W.toNat → ∀ j : Nat, j < H.toNat →
        g.a.cell i j = blockP bx byy ↑i ↑j) →
      ∃ g2, g.iter n = some g2 ∧ g2.Inv ∧ g2.width = W ∧ g2.h = H ∧
        ∀ i : Nat, i < W.toNat → ∀ j : Nat, j < H.toNat →
          g2.a.cell i j = blockP bx byy ↑i ↑j := by
  intro n
  induction n with
  | zero =>
    intro g hg hw hh hc
    exact ⟨g, rfl, hg, hw, hh, hc⟩
  | succ n ih =>
    intro g hg hw hh hc
    obtain ⟨g1, hstep, hba, hww, hhh, hinv1, hcells1⟩ := Life.Step_spec hg
    obtain ⟨hfa, hfb, haw, hah, hbw, hbh⟩ := hg
    have haw2 : g.a.width = W := by omega
    have hah2 : g.a.h = H := by omega
    have hanew : ∀ i : Nat, i < W.toNat → ∀ j : Nat, j < H.toNat →
        g1.a.cell i j = blockP bx byy ↑i ↑j := by
      intro i hi j hj
      rw [hcells1 i j, if_pos ⟨by omega, by omega⟩]
      have hc2 : ∀ i j : Nat, i < g.a.width.toNat → j < g.a.h.toNat →
          g.a.cell i j = blockP bx byy ↑i ↑j := by
        intro i j hi hj
        exact hc i (by omega) j (by omega)
      exact block_step_cell hfa (by omega) (by omega) hbx (by omega) hby (by omega)
        hc2 (by omega) (by omega) (by omega) (by omega)
    obtain ⟨g2, hiter, hinv2, hw2, hh2, hc2⟩ :=
      ih g1 hinv1 (by omega) (by omega) hanew
    refine ⟨g2, ?_, hinv2, hw2, hh2, hc2⟩
    show g.Step.bind (fun gg => gg.iter n) = some g2
    rw [hstep, Option.some_bind, hiter]

/-- C5: a simulation of size `W × H` with `W, H ≥ 4` whose current grid
is exactly a 2×2 block of live cells at `(bx, by), (bx+1, by),
(bx, by+1), (bx+1, by+1)` — not wrapping around an edge — and all other
cells dead is left unchanged by `Step`, after every number `n ≥ 1` of
successive steps: the iterate succeeds and the current grid holds
exactly the same block. -/
theorem C5_block_still_life {W H bx byy : Int} {g : Life}
    (hW : 4 ≤ W) (hH : 4 ≤ H)
    (hbx : 0 ≤ bx) (hbx1 : bx + 1 ≤ W - 1) (hby : 0 ≤ byy) (hby1 : byy + 1 ≤ H - 1)
    (hg : g.Inv) (hgw : g.width = W) (hgh : g.h = H)
    (hcells : ∀ i : Nat, i < W.toNat → ∀ j : Nat, j < H.toNat →
      g.a.cell i j = blockP bx byy ↑i ↑j)
    (n : Nat) (hn : 1 ≤ n) :
    ∃ g2, g.iter n = some g2 ∧ g2.width = W ∧ g2.h = H ∧
      ∀ i : Nat, i < W.toNat → ∀ j : Nat, j < H.toNat →
        g2.a.cell i j = blockP bx byy ↑i ↑j := by
  obtain ⟨g2, hiter, _, hw2, hh2, hc2⟩ :=
    block_iter_aux hW hH hbx hbx1 hby hby1 n g hg hgw hgh hcells
  exact ⟨g2, hiter, hw2, hh2, hc2⟩

/-- A concrete 4×4 block configuration for the C5 witness. -/
def blockL : Life :=
  ⟨⟨[[false, false, false, false],
     [false, true, true, false],
     [false, true, true, false],
     [false, false, false, false]], 4, 4⟩, NewField 4 4, 4, 4⟩

/-- Witness for C5: one step of the concrete 4×4 block. -/
theorem C5_witness :
    ∃ g2, blockL.iter 1 = some g2 ∧ g2.width = 4 ∧ g2.h = 4 ∧
      ∀ i : Nat, i < (4 : Int).toNat → ∀ j : Nat, j < (4 : Int).toNat →
        g2.a.cell i j = blockP 1 1 ↑i ↑j :=
  @C5_block_still_life 4 4 1 1 blockL (by decide) (by decide)
    (by decide) (by decide) (by decide) (by decide) (by decide) rfl rfl (by decide) 1
    (by decide)

/-! ### The blinker patterns (C6) -/

/-- Membership in the three-wide span `{1, 2, 3}`. -/
def inRun3 (t : Int) : Bool := decide (1 ≤ t ∧ t ≤ 3)

/-- Equality with the centre coordinate 2. -/
def isTwo (t : Int) : Bool := decide (t = 2)

/-- The horizontal blinker: cells `(1,2), (2,2), (3,2)`. -/
def horizP : Int → Int → Bool := fun a b => inRun3 a && isTwo b

/-- The vertical blinker: cells `(2,1), (2,2), (2,3)`. -/
def vertP : Int → Int → Bool := fun a b => isTwo a && inRun3 b

/-- Per-axis analysis of the span `{1,2,3}` on a torus of size `W ≥ 5`. -/
theorem run3_axis {W x : Int} (hW : 5 ≤ W) (hx0 : 0 ≤ x) (hx1 : x < W) :
    inRun3 (wrapI W (x + 0)) = decide (1 ≤ x ∧ x ≤ 3) ∧
    (x = 2 → n3 (inRun3 (wrapI W (x + -1))) (inRun3 (wrapI W (x + 0)))
      (inRun3 (wrapI W (x + 1))) = 3) ∧
    ((x = 1 ∨ x = 3) → n3 (inRun3 (wrapI W (x + -1))) (inRun3 (wrapI W (x + 0)))
      (inRun3 (wrapI W (x + 1))) = 2) ∧
    (¬(1 ≤ x ∧ x ≤ 3) → n3 (inRun3 (wrapI W (x + -1))) (inRun3 (wrapI W (x + 0)))
      (inRun3 (wrapI W (x + 1))) ≤ 1) := by
  have e0 : wrapI W (x + 0) = x := by
    rw [show x + 0 = x by omega]
    exact wrapI_id (by omega) hx0 hx1
  have hcase : x = 0 ∨ x = W - 1 ∨ (1 ≤ x ∧ x ≤ W - 2) := by omega
  rcases hcase with h | h | h
  · have em : wrapI W (x + -1) = W - 1 := by
      rw [show x + -1 = -1 by omega]
      exact wrapI_neg_one (by omega)
    have ep : wrapI W (x + 1) = x + 1 := wrapI_id (by omega) (by omega) (by omega)
    rw [e0, em, ep]
    refine ⟨rfl, fun hx => ?_, fun hx => ?_, fun hx => ?_⟩ <;>
      simp only [inRun3, n3, Bool.cond_decide] <;> split_ifs <;> omega
  · have em : wrapI W (x + -1) = x - 1 := by
      rw [show x + -1 = x - 1 by omega]
      exact wrapI_id (by omega) (by omega) (by omega)
    have ep : wrapI W (x + 1) = 0 := by
      rw [show x + 1 = W by omega]
      exact wrapI_top (by omega)
    rw [e0, em, ep]
    refine ⟨rfl, fun hx => ?_, fun hx => ?_, fun hx => ?_⟩ <;>
      simp only [inRun3, n3, Bool.cond_decide] <;> split_ifs <;> omega
  · have em : wrapI W (x + -1) = x - 1 := by
      rw [show x + -1 = x - 1 by omega]
      exact wrapI_id (by omega) (by omega) (by omega)
    have ep : wrapI W (x + 1) = x + 1 := wrapI_id (by omega) (by omega) (by omega)
    rw [e0, em, ep]
    refine ⟨rfl, fun hx => ?_, fun hx => ?_, fun hx => ?_⟩ <;>
      simp only [inRun3, n3, Bool.cond_decide] <;> split_ifs <;> omega

/-- Per-axis analysis of the singleton `{2}` on a torus of size `W ≥ 5`. -/
theorem single2_axis {W x : Int} (hW : 5 ≤ W) (hx0 : 0 ≤ x) (hx1 : x < W) :
    isTwo (wrapI W (x + 0)) = decide (x = 2) ∧
    ((1 ≤ x ∧ x ≤ 3) → n3 (isTwo (wrapI W (x + -1))) (isTwo (wrapI W (x + 0)))
      (isTwo (wrapI W (x + 1))) = 1) ∧
    (¬(1 ≤ x ∧ x ≤ 3) → n3 (isTwo (wrapI W (x + -1))) (isTwo (wrapI W (x + 0)))
      (isTwo (wrapI W (x + 1))) = 0) := by
  have e0 : wrapI W (x + 0) = x := by
    rw [show x + 0 = x by omega]
    exact wrapI_id (by omega) hx0 hx1
  have hcase : x = 0 ∨ x = W - 1 ∨ (1 ≤ x ∧ x ≤ W - 2) := by omega
  rcases hcase with h | h | h
  · have em : wrapI W (x + -1) = W - 1 := by
      rw [show x + -1 = -1 by omega]
      exact wrapI_neg_one (by omega)
    have ep : wrapI W (x + 1) = x + 1 := wrapI_id (by omega) (by omega) (by omega)
    rw [e0, em, ep]
    refine ⟨rfl, fun hx => ?_, fun hx => ?_⟩ <;>
      simp only [isTwo, n3, Bool.cond_decide] <;> split_ifs <;> omega
  · have em : wrapI W (x + -1) = x - 1 := by
      rw [show x + -1 = x - 1 by omega]
      exact wrapI_id (by omega) (by omega) (by omega)
    have ep : wrapI W (x + 1) = 0 := by
      rw [show x + 1 = W by omega]
      exact wrapI_top (by omega)
    rw [e0, em, ep]
    refine ⟨rfl, fun hx => ?_, fun hx => ?_⟩ <;>
      simp only [isTwo, n3, Bool.cond_decide] <;> split_ifs <;> omega
  · have em : wrapI W (x + -1) = x - 1 := by
      rw [show x + -1 = x - 1 by omega]
      exact wrapI_id (by omega) (by omega) (by omega)
    have ep : wrapI W (x + 1) = x + 1 := wrapI_id (by omega) (by omega) (by omega)
    rw [e0, em, ep]
    refine ⟨rfl, fun hx => ?_, fun hx => ?_⟩ <;>
      simp only [isTwo, n3, Bool.cond_decide] <;> split_ifs <;> omega

/-- On a field carrying exactly the horizontal blinker, the transition
rule produces exactly the vertical blinker at every in-range cell. -/
theorem horiz_step_cell {f : Field} (hf : f.WF)
    (hW5 : 5 ≤ f.width) (hH5 : 5 ≤ f.h)
    (hcells : ∀ i j : Nat, i < f.width.toNat → j < f.h.toNat →
      f.cell i j = horizP ↑i ↑j)
    {x y : Int} (hx0 : 0 ≤ x) (hx : x < f.width) (hy0 : 0 ≤ y) (hy : y < f.h) :
    f.pureNext x y = vertP x y := by
  have hW : 0 < f.width := by omega
  have hH : 0 < f.h := by omega
  have hAB : ∀ i j : Int, -1 ≤ i → i ≤ 1 → -1 ≤ j → j ≤ 1 → ¬(i = 0 ∧ j = 0) →
      f.aliveB (x + i) (y + j) =
        ((fun i => inRun3 (wrapI f.width (x + i))) i &&
          (fun j => isTwo (wrapI f.h (y + j))) j) := by
    intro i j h1 h2 h3 h4 _
    exact Field.aliveB_pattern hf hcells (by omega) (by omega)
  have hself : f.aliveB x y =
      ((fun i => inRun3 (wrapI f.width (x + i))) 0 &&
        (fun j => isTwo (wrapI f.h (y + j))) 0) := by
    have h := Field.aliveB_pattern hf hcells (x := x) (y := y) (by omega) (by omega)
    rw [h]
    show horizP (wrapI f.width x) (wrapI f.h y) = _
    simp only [horizP]
    rw [show x + 0 = x by omega, show y + 0 = y by omega]
  rw [Field.pureNext_product f x y _ _ hAB hself]
  obtain ⟨ha0, ha2, ha13, haoff⟩ := run3_axis hW5 hx0 hx
  obtain ⟨hb0, hbin, hboff⟩ := single2_axis hH5 hy0 hy
  show _ = (decide (x = 2) && decide (1 ≤ y ∧ y ≤ 3))
  by_cases hy13 : 1 ≤ y ∧ y ≤ 3
  · rw [hbin hy13]
    have dy3 : decide (1 ≤ y ∧ y ≤ 3) = true := by simp [hy13]
    by_cases hx2 : x = 2
    · rw [ha2 hx2, ha0, hb0]
      have dx1 : decide (1 ≤ x ∧ x ≤ 3) = true := by simp [hx2]
      have dx2 : decide (x = 2) = true := by simp [hx2]
      rw [dx1, dx2, dy3]
      by_cases hy2 : y = 2
      · have dy2 : decide (y = 2) = true := by simp [hy2]
        rw [dy2]
        rfl
      · have dy2 : decide (y = 2) = false := by simp [hy2]
        rw [dy2]
        rfl
    · have dx2 : decide (x = 2) = false := by simp [hx2]
      by_cases hx13 : 1 ≤ x ∧ x ≤ 3
      · rw [ha13 (by omega), ha0, hb0]
        have dx1 : decide (1 ≤ x ∧ x ≤ 3) = true := by simp [hx13]
        rw [dx1, dx2, dy3]
        by_cases hy2 : y = 2
        · have dy2 : decide (y = 2) = true := by simp [hy2]
          rw [dy2]
          rfl
        · have dy2 : decide (y = 2) = false := by simp [hy2]
          rw [dy2]
          rfl
      · have hna := haoff hx13
        have dx1 : decide (1 ≤ x ∧ x ≤ 3) = false := by simp [hx13]
        rw [ha0] at hna
        rw [dx1] at hna
        rw [ha0, hb0, dx1, dx2, dy3]
        simp only [Bool.false_and, Bool.and_false, Bool.or_false]
        have h3 : ∀ m : Nat, m ≤ 1 → (m * 1 - cond false 1 0 == 3) = false := by
          intro m hm
          simp only [beq_eq_false_iff_ne, ne_eq]
          omega
        exact h3 _ hna
  · rw [hboff hy13, ha0, hb0]
    have dy3 : decide (1 ≤ y ∧ y ≤ 3) = false := by simp [hy13]
    rw [dy3]
    simp only [Nat.mul_zero, Nat.zero_sub, Bool.and_false]
    rfl

/-- On a field carrying exactly the vertical blinker, the transition
rule restores exactly the horizontal blinker at every in-range cell. -/
theorem vert_step_cell {f : Field} (hf : f.WF)
    (hW5 : 5 ≤ f.width) (hH5 : 5 ≤ f.h)
    (hcells : ∀ i j : Nat, i < f.width.toNat → j < f.h.toNat →
      f.cell i j = vertP ↑i ↑j)
    {x y : Int} (hx0 : 0 ≤ x) (hx : x < f.width) (hy0 : 0 ≤ y) (hy : y < f.h) :
    f.pureNext x y = horizP x y := by
  have hW : 0 < f.width := by omega
  have hH : 0 < f.h := by omega
  have hAB : ∀ i j : Int, -1 ≤ i → i ≤ 1 → -1 ≤ j → j ≤ 1 → ¬(i = 0 ∧ j = 0) →
      f.aliveB (x + i) (y + j) =
        ((fun i => isTwo (wrapI f.width (x + i))) i &&
          (fun j => inRun3 (wrapI f.h (y + j))) j) := by
    intro i j h1 h2 h3 h4 _
    exact Field.aliveB_pattern hf hcells (by omega) (by omega)
  have hself : f.aliveB x y =
      ((fun i => isTwo (wrapI f.width (x + i))) 0 &&
        (fun j => inRun3 (wrapI f.h (y + j))) 0) := by
    have h := Field.aliveB_pattern hf hcells (x := x) (y := y) (by omega) (by omega)
    rw [h]
    show vertP (wrapI f.width x) (wrapI f.h y) = _
    simp only [vertP]
    rw [show x + 0 = x by omega, show y + 0 = y by omega]
  rw [Field.pureNext_product f x y _ _ hAB hself]
  obtain ⟨ha0, hain, haoff⟩ := single2_axis hW5 hx0 hx
  obtain ⟨hb0, hb2, hb13, hboff⟩ := run3_axis hH5 hy0 hy
  show _ = (decide (1 ≤ x ∧ x ≤ 3) && decide (y = 2))
  by_cases hx13 : 1 ≤ x ∧ x ≤ 3
  · rw [hain hx13]
    have dx3 : decide (1 ≤ x ∧ x ≤ 3) = true := by simp [hx13]
    by_cases hy2 : y = 2
    · rw [hb2 hy2, ha0, hb0]
      have dy1 : decide (1 ≤ y ∧ y ≤ 3) = true := by simp [hy2]
      have dy2 : decide (y = 2) = true := by simp [hy2]
      rw [dy1, dy2, dx3]
      by_cases hx2 : x = 2
      · have dx2 : decide (x = 2) = true := by simp [hx2]
        rw [dx2]
        rfl
      · have dx2 : decide (x = 2) = false := by simp [hx2]
        rw [dx2]
        rfl
    · have dy2 : decide (y = 2) = false := by simp [hy2]
      by_cases hy13 : 1 ≤ y ∧ y ≤ 3
      · rw [hb13 (by omega), ha0, hb0]
        have dy1 : decide (1 ≤ y ∧ y ≤ 3) = true := by simp [hy13]
        rw [dy1, dy2, dx3]
        by_cases hx2 : x = 2
        · have dx2 : decide (x = 2) = true := by simp [hx2]
          rw [dx2]
          rfl
        · have dx2 : decide (x = 2) = false := by simp [hx2]
          rw [dx2]
          rfl
      · have hnb := hboff hy13
        have dy1 : decide (1 ≤ y ∧ y ≤ 3) = false := by simp [hy13]
        rw [hb0] at hnb
        rw [dy1] at hnb
        rw [ha0, hb0, dy1, dy2, dx3]
        simp only [Bool.and_false, Bool.or_false]
        have h3 : ∀ m : Nat, m ≤ 1 → (1 * m - cond false 1 0 == 3) = false := by
          intro m hm
          simp only [beq_eq_false_iff_ne, ne_eq]
          omega
        exact h3 _ hnb
  · rw [haoff hx13, ha0, hb0]
    have dx3 : decide (1 ≤ x ∧ x ≤ 3) = false := by simp [hx13]
    have dx2 : decide (x = 2) = false := by
      simp only [decide_eq_false_iff_not]
      omega
    rw [dx3, dx2]
    simp only [Nat.zero_mul, Nat.zero_sub, Bool.false_and]
    rfl

/-- C6: a simulation of size `W × H` with `W, H ≥ 5` whose current grid
is exactly the horizontal blinker `(1,2), (2,2), (3,2)` (all other
cells dead) becomes exactly the vertical blinker `(2,1), (2,2), (2,3)`
after one `Step`, and exactly the original horizontal blinker again
after a second `Step`. -/
theorem C6_blinker {W H : Int} {g : Life} (hW : 5 ≤ W) (hH : 5 ≤ H)
    (hg : g.Inv) (hgw : g.width = W) (hgh : g.h = H)
    (hcells : ∀ i : Nat, i < W.toNat → ∀ j : Nat, j < H.toNat →
      g.a.cell i j = horizP ↑i ↑j) :
    ∃ g1, g.Step = some g1 ∧ g1.width = W ∧ g1.h = H ∧
      (∀ i : Nat, i < W.toNat → ∀ j : Nat, j < H.toNat →
        g1.a.cell i j = vertP ↑i ↑j) ∧
      ∃ g2, g1.Step = some g2 ∧ g2.width = W ∧ g2.h = H ∧
        ∀ i : Nat, i < W.toNat → ∀ j : Nat, j < H.toNat →
          g2.a.cell i j = horizP ↑i ↑j := by
  obtain ⟨g1, hstep1, hba1, hww1, hhh1, hinv1, hcells1⟩ := Life.Step_spec hg
  obtain ⟨hfa, hfb, haw, hah, hbw, hbh⟩ := hg
  have hv : ∀ i : Nat, i < W.toNat → ∀ j : Nat, j < H.toNat →
      g1.a.cell i j = vertP ↑i ↑j := by
    intro i hi j hj
    rw [hcells1 i j, if_pos ⟨by omega, by omega⟩]
    exact horiz_step_cell hfa (by omega) (by omega)
      (fun i j hi hj => hcells i (by omega) j (by omega))
      (by omega) (by omega) (by omega) (by omega)
  obtain ⟨g2, hstep2, hba2, hww2, hhh2, hinv2, hcells2⟩ := Life.Step_spec hinv1
  obtain ⟨hfa1, hfb1, haw1, hah1, hbw1, hbh1⟩ := hinv1
  have hh2 : ∀ i : Nat, i < W.toNat → ∀ j : Nat, j < H.toNat →
      g2.a.cell i j = horizP ↑i ↑j := by
    intro i hi j hj
    rw [hcells2 i j, if_pos ⟨by omega, by omega⟩]
    exact vert_step_cell hfa1 (by omega) (by omega)
      (fun i j hi hj => hv i (by omega) j (by omega))
      (by omega) (by omega) (by omega) (by omega)
  exact ⟨g1, hstep1, by omega, by omega, hv,
    g2, hstep2, by omega, by omega, hh2⟩

/-- A concrete 5×5 horizontal-blinker configuration for the C6
witness. -/
def blinkL : Life :=
  ⟨⟨[[false, false, false, false, false],
     [false, false, false, false, false],
     [false, true, true, true, false],
     [false, false, false, false, false],
     [false, false, false, false, false]], 5, 5⟩, NewField 5 5, 5, 5⟩

/-- Witness for C6 on the concrete 5×5 blinker. -/
theorem C6_witness :
    ∃ g1, blinkL.Step = some g1 ∧ g1.width = 5 ∧ g1.h = 5 ∧
      (∀ i : Nat, i < (5 : Int).toNat → ∀ j : Nat, j < (5 : Int).toNat →
        g1.a.cell i j = vertP ↑i ↑j) ∧
      ∃ g2, g1.Step = some g2 ∧ g2.width = 5 ∧ g2.h = 5 ∧
        ∀ i : Nat, i < (5 : Int).toNat → ∀ j : Nat, j < (5 : Int).toNat →
          g2.a.cell i j = horizP ↑i ↑j :=
  C6_blinker (W := 5) (H := 5) (by decide) (by decide) (by decide) rfl rfl (by decide)

example : (NewField 3 2).s = [[false, false, false], [false, false, false]] := by decide

example : (Field.mk [[true, false], [false, true]] 2 2).Alive (-1) 0 = some false := by decide

example : (Field.mk [[true, false], [false, true]] 2 2).Alive (-5) 0 = none := by decide

example : (Field.mk [[true, false], [false, true]] 2 2).Alive (-4) 0 = some true := by decide

end GoL
